import Mathlib

/-!
Verification of the wheel-metadata engine in `rules_python/whl.py`.

The Python code is shallowly embedded: Python strings are modelled as lists
of characters (`Str`), Python dict values that may be absent are `Option`s,
and operations that can raise return `Option`.  The external helpers from
`pkg_resources` (requirement parsing, marker parsing and evaluation) are
modelled from the spec, as noted on each such definition.
-/

/-- A Python string, as its sequence of characters. -/
abbrev Str := List Char

/-- The character sequence of a Lean string literal. -/
def chars (s : String) : Str := s.data

/-! ### Splitting, as used by `os.path.basename`, `str.split`, and `re.split` -/

/-- Helper for `splitOnPred`: first field and remaining fields. -/
def splitCore (p : Char → Bool) : Str → Str × List Str
  | [] => ([], [])
  | c :: cs =>
    let r := splitCore p cs
    if p c then ([], r.1 :: r.2) else (c :: r.1, r.2)

/-- Python `re.split` on a single-character class: split at every character
satisfying `p`, keeping empty fields.  Always yields at least one field. -/
def splitOnPred (p : Char → Bool) (l : Str) : List Str :=
  (splitCore p l).1 :: (splitCore p l).2

/-- Python `s.split(sep)` for a one-character separator. -/
def splitOnChar (sep : Char) (l : Str) : List Str :=
  splitOnPred (fun c => c == sep) l

/-- `os.path.basename`: the part of the path after the last `'/'`. -/
def basename (path : Str) : Str := (splitOnChar '/' path).getLastD []

/-- `Wheel.distribution`: `basename().split('-')[0]`.  Indexing at 0 never
fails because a split result is never empty. -/
def distribution (path : Str) : Str := (splitOnChar '-' (basename path)).headD []

/-- `Wheel.version`: `basename().split('-')[1]`; `none` models the
`IndexError` raised when the filename has no dash. -/
def version (path : Str) : Option Str := (splitOnChar '-' (basename path))[1]?

/-- One step of `re.sub('[-.+]', '_', s)`. -/
def escapeChar (c : Char) : Char := if c = '-' ∨ c = '.' ∨ c = '+' then '_' else c

/-- `Wheel.repository_name`: `'pypi__{}_{}'.format(distribution, version)` with
every `-`, `.`, `+` replaced by `_`; fails when `version` fails. -/
def repository_name (path : Str) : Option Str :=
  (version path).map fun v =>
    (chars "pypi__" ++ distribution path ++ chars "_" ++ v).map escapeChar

theorem splitCore_of_all_clean {p : Char → Bool} {l : Str}
    (h : ∀ c ∈ l, p c = false) : splitCore p l = (l, []) := by
  induction l with
  | nil => rfl
  | cons c cs ih =>
    have hc : p c = false := h c (List.mem_cons_self _ _)
    simp [splitCore, hc, ih (fun x hx => h x (List.mem_cons_of_mem _ hx))]

theorem splitCore_append {p : Char → Bool} {d : Str} {c : Char} {r : Str}
    (hd : ∀ x ∈ d, p x = false) (hc : p c = true) :
    splitCore p (d ++ c :: r) = (d, (splitCore p r).1 :: (splitCore p r).2) := by
  induction d with
  | nil => simp [splitCore, hc]
  | cons a as ih =>
    have ha : p a = false := hd a (List.mem_cons_self _ _)
    simp [splitCore, ha, ih (fun x hx => hd x (List.mem_cons_of_mem _ hx))]

theorem splitCore_fst (p : Char → Bool) (l : Str) :
    (splitCore p l).1 = l.takeWhile (fun c => !(p c)) := by
  induction l with
  | nil => rfl
  | cons c cs ih =>
    by_cases hc : p c = true
    · simp [splitCore, hc, List.takeWhile]
    · simp only [Bool.not_eq_true] at hc
      simp [splitCore, hc, List.takeWhile, ih]

theorem splitOnPred_of_all_clean {p : Char → Bool} {l : Str}
    (h : ∀ c ∈ l, p c = false) : splitOnPred p l = [l] := by
  simp [splitOnPred, splitCore_of_all_clean h]

theorem splitOnPred_append {p : Char → Bool} {d : Str} {c : Char} {r : Str}
    (hd : ∀ x ∈ d, p x = false) (hc : p c = true) :
    splitOnPred p (d ++ c :: r) = d :: splitOnPred p r := by
  simp [splitOnPred, splitCore_append hd hc]

theorem headD_splitOnPred (p : Char → Bool) (l : Str) :
    (splitOnPred p l).headD [] = l.takeWhile (fun c => !(p c)) := by
  simp [splitOnPred, splitCore_fst]

theorem mem_false_of_not_mem {c : Char} {l : Str} (h : c ∉ l) :
    ∀ x ∈ l, (x == c) = false := by
  intro x hx
  simp only [beq_eq_false_iff_ne, ne_eq]
  rintro rfl
  exact h hx

/-- Claim C10: `distribution` is total: for every filename it returns the part
of the basename before the first dash, which is the whole basename when the
basename contains no dash. -/
theorem claim10 (path : Str) :
    distribution path = (basename path).takeWhile (fun c => !(c == '-')) := by
  show (splitOnPred (fun c => c == '-') (basename path)).headD [] = _
  rw [headD_splitOnPred]

/-- Claim C5: for every archive filename of the four-dash-delimited form
`D-V-*-*-*` (with no `/` and with dash-free `D`, `V`), `distribution` returns
`D`, `version` returns `V`, and `repository_name` returns
`"pypi__" ++ D ++ "_" ++ V` with every `-`, `.`, `+` replaced by `_`. -/
theorem claim5 (d v t1 t2 t3 fname : Str)
    (hf : fname = d ++ '-' :: (v ++ '-' :: (t1 ++ '-' :: t2 ++ '-' :: t3)))
    (hd : '-' ∉ d) (hv : '-' ∉ v) (hs : '/' ∉ fname) :
    distribution fname = d ∧ version fname = some v ∧
    repository_name fname =
      some ((chars "pypi__" ++ d ++ chars "_" ++ v).map escapeChar) := by
  have hbase : basename fname = fname := by
    simp [basename, splitOnChar, splitOnPred_of_all_clean (mem_false_of_not_mem hs)]
  have h1 := splitOnPred_append (p := fun c => c == '-') (d := d) (c := '-')
    (r := v ++ '-' :: (t1 ++ '-' :: t2 ++ '-' :: t3))
    (mem_false_of_not_mem hd) (by simp)
  have h2 := splitOnPred_append (p := fun c => c == '-') (d := v) (c := '-')
    (r := t1 ++ '-' :: t2 ++ '-' :: t3)
    (mem_false_of_not_mem hv) (by simp)
  have hsplit : splitOnChar '-' fname =
      d :: v :: splitOnPred (fun c => c == '-') (t1 ++ '-' :: t2 ++ '-' :: t3) := by
    rw [hf]
    show splitOnPred _ _ = _
    rw [h1, h2]
  have hdist : distribution fname = d := by
    simp [distribution, hbase, hsplit]
  have hver : version fname = some v := by
    simp [version, hbase, hsplit]
  exact ⟨hdist, hver, by simp [repository_name, hver, hdist]⟩

/-- Claim C5 witness: the archive name `mock-2.0.0-py2-none-any.whl`. -/
theorem claim5_witness :
    distribution (chars "mock-2.0.0-py2-none-any.whl") = chars "mock" ∧
    version (chars "mock-2.0.0-py2-none-any.whl") = some (chars "2.0.0") ∧
    repository_name (chars "mock-2.0.0-py2-none-any.whl") =
      some ((chars "pypi__" ++ chars "mock" ++ chars "_" ++ chars "2.0.0").map escapeChar) :=
  claim5 (chars "mock") (chars "2.0.0") (chars "py2") (chars "none")
    (chars "any.whl") (chars "mock-2.0.0-py2-none-any.whl")
    (by decide) (by decide) (by decide) (by decide)

/-- Claim C7: a filename whose basename has no dash (fewer than two
dash-separated components) makes `version` — and hence the identity query —
fail rather than return a default. -/
theorem claim7 (path : Str) (h : '-' ∉ basename path) :
    version path = none ∧ repository_name path = none := by
  have hsplit : splitOnChar '-' (basename path) = [basename path] :=
    splitOnPred_of_all_clean (mem_false_of_not_mem h)
  have hv : version path = none := by simp [version, hsplit]
  exact ⟨hv, by simp [repository_name, hv]⟩

/-- Claim C7 witness: the archive name `onlyonepart.whl`. -/
theorem claim7_witness :
    '-' ∉ basename (chars "onlyonepart.whl") ∧
    version (chars "onlyonepart.whl") = none ∧
    repository_name (chars "onlyonepart.whl") = none :=
  ⟨by decide, claim7 (chars "onlyonepart.whl") (by decide)⟩

/-! ### Lexicographic comparison of Python strings (code-point order) -/

/-- Python `s1 < s2`: lexicographic comparison by code point. -/
def lexLt : Str → Str → Bool
  | [], [] => false
  | [], _ :: _ => true
  | _ :: _, [] => false
  | a :: as, b :: bs => if a < b then true else if b < a then false else lexLt as bs

/-- Python `s1 < s2` as a proposition. -/
def StrLt (a b : Str) : Prop := lexLt a b = true

/-- Python `s1 <= s2` as a proposition. -/
def StrLe (a b : Str) : Prop := lexLt b a = false

instance : DecidableRel StrLt := fun _ _ => instDecidableEqBool _ _

instance : DecidableRel StrLe := fun _ _ => instDecidableEqBool _ _

theorem lexLt_asymm : ∀ {a b : Str}, lexLt a b = true → lexLt b a = false
  | [], [], _ => rfl
  | [], _ :: _, _ => rfl
  | _ :: _, [], h => by simp [lexLt] at h
  | a :: as, b :: bs, h => by
    simp only [lexLt] at h ⊢
    rcases lt_trichotomy a b with hab | hab | hab
    · simp [hab, not_lt_of_gt hab]
    · subst hab
      simp only [lt_irrefl, if_false] at h ⊢
      exact lexLt_asymm h
    · simp [hab, not_lt_of_gt hab] at h

theorem lexLt_trans : ∀ {a b c : Str},
    lexLt a b = true → lexLt b c = true → lexLt a c = true
  | [], _, _ :: _, _, _ => rfl
  | [], _ :: _, [], _, h => by simp [lexLt] at h
  | [], [], [], h, _ => by simp [lexLt] at h
  | _ :: _, [], _, h, _ => by simp [lexLt] at h
  | _ :: _, _ :: _, [], _, h => by simp [lexLt] at h
  | a :: as, b :: bs, c :: cs, h1, h2 => by
    simp only [lexLt] at h1 h2 ⊢
    rcases lt_trichotomy a b with hab | hab | hab
    · rcases lt_trichotomy b c with hbc | hbc | hbc
      · have hac := lt_trans hab hbc
        simp [hac]
      · subst hbc; simp [hab]
      · simp [hbc, not_lt_of_gt hbc] at h2
    · subst hab
      rcases lt_trichotomy a c with hac | hac | hac
      · simp [hac]
      · subst hac
        simp only [lt_irrefl, if_false] at h1 h2 ⊢
        exact lexLt_trans h1 h2
      · simp [hac, not_lt_of_gt hac] at h2
    · simp [hab, not_lt_of_gt hab] at h1

theorem lexLt_connex : ∀ {a b : Str},
    lexLt a b = false → lexLt b a = false → a = b
  | [], [], _, _ => rfl
  | [], _ :: _, h, _ => by simp [lexLt] at h
  | _ :: _, [], _, h => by simp [lexLt] at h
  | a :: as, b :: bs, h1, h2 => by
    simp only [lexLt] at h1 h2
    rcases lt_trichotomy a b with hab | hab | hab
    · simp [hab] at h1
    · subst hab
      simp only [lt_irrefl, if_false] at h1 h2
      rw [lexLt_connex h1 h2]
    · simp [hab] at h2

instance : IsTotal Str StrLe where
  total a b := by
    unfold StrLe
    by_cases h : lexLt b a = false
    · exact Or.inl h
    · exact Or.inr (lexLt_asymm (Bool.of_not_eq_false h))

instance : IsTrans Str StrLe where
  trans a b c h1 h2 := by
    unfold StrLe at h1 h2 ⊢
    by_contra h
    have hca : lexLt c a = true := Bool.of_not_eq_false h
    by_cases hab : lexLt a b = true
    · have := lexLt_trans hca hab
      simp [this] at h2
    · have hab' : lexLt a b = false := by
        cases hh : lexLt a b
        · rfl
        · exact absurd hh hab
      have heq : a = b := lexLt_connex hab' h1
      subst heq
      simp [hca] at h2

instance : IsAntisymm Str StrLe where
  antisymm a b h1 h2 := lexLt_connex h2 h1

/-- Python tuple comparison `(a1, a2) <= (b1, b2)` on pairs of strings. -/
def pairLe (a b : Str × Str) : Prop :=
  StrLt a.1 b.1 ∨ (a.1 = b.1 ∧ StrLe a.2 b.2)

instance : DecidableRel pairLe := fun a b => by
  unfold pairLe
  infer_instance

theorem pairLe_total (a b : Str × Str) : pairLe a b ∨ pairLe b a := by
  unfold pairLe StrLt StrLe
  by_cases h1 : lexLt a.1 b.1 = true
  · exact Or.inl (Or.inl h1)
  · by_cases h2 : lexLt b.1 a.1 = true
    · exact Or.inr (Or.inl h2)
    · have h1' : lexLt a.1 b.1 = false := Bool.of_not_eq_true h1
      have h2' : lexLt b.1 a.1 = false := Bool.of_not_eq_true h2
      have he : a.1 = b.1 := lexLt_connex h1' h2'
      by_cases h3 : lexLt b.2 a.2 = true
      · exact Or.inr (Or.inr ⟨he.symm, lexLt_asymm h3⟩)
      · exact Or.inl (Or.inr ⟨he, Bool.of_not_eq_true h3⟩)

theorem pairLe_trans {a b c : Str × Str} (h1 : pairLe a b) (h2 : pairLe b c) :
    pairLe a c := by
  unfold pairLe StrLt StrLe at h1 h2 ⊢
  rcases h1 with h1 | ⟨h1e, h1le⟩
  · rcases h2 with h2 | ⟨h2e, _⟩
    · exact Or.inl (lexLt_trans h1 h2)
    · exact Or.inl (h2e ▸ h1)
  · rcases h2 with h2 | ⟨h2e, h2le⟩
    · exact Or.inl (h1e ▸ h2)
    · exact Or.inr ⟨h1e.trans h2e, IsTrans.trans (r := StrLe) _ _ _ h1le h2le⟩

theorem pairLe_antisymm {a b : Str × Str} (h1 : pairLe a b) (h2 : pairLe b a) :
    a = b := by
  unfold pairLe StrLt StrLe at h1 h2
  rcases h1 with h1 | ⟨h1e, h1le⟩
  · rcases h2 with h2 | ⟨h2e, _⟩
    · exact absurd h2 (by simp [lexLt_asymm h1])
    · rw [h2e] at h1
      exact absurd h1 (by simp [lexLt_asymm h1])
  · rcases h2 with h2 | ⟨h2e, h2le⟩
    · rw [← h1e] at h2
      exact absurd h2 (by simp [lexLt_asymm h2])
    · exact Prod.ext_iff.mpr ⟨h1e, lexLt_connex h2le h1le⟩

/-! ### Markers and requirements (modelled from the spec) -/

/-- Comparison operators of the marker subset grammar. -/
inductive MOp where
  | eq | ne | lt | le | gt | ge
deriving DecidableEq

/-- Modelled from the spec: Python `<` on an attribute value that may be
`None` (Python 2 puts `None` below every string). -/
def optLt (v : Option Str) (w : Str) : Bool :=
  match v with
  | none => true
  | some u => lexLt u w

/-- Modelled from the spec: apply one comparison operator to the looked-up
attribute value and a string literal (literal string comparison). -/
def MOp.apply : MOp → Option Str → Str → Bool
  | .eq, v, lit => v = some lit
  | .ne, v, lit => v ≠ some lit
  | .lt, v, lit => optLt v lit
  | .le, v, lit => optLt v lit || v = some lit
  | .gt, v, lit =>
    match v with
    | none => false
    | some u => lexLt lit u
  | .ge, v, lit =>
    (match v with
     | none => false
     | some u => lexLt lit u) || v = some lit

/-- Modelled from the spec: the marker expression subset grammar — comparisons
`attribute <op> "literal"` combined with `and` / `or`.  The source delegates
markers to the external `pkg_resources`/`packaging` library. -/
inductive MarkerExpr where
  | cmp (attr : Str) (op : MOp) (lit : Str)
  | and (a b : MarkerExpr)
  | or (a b : MarkerExpr)
deriving DecidableEq

/-- Modelled from the spec: evaluate a marker against an environment context;
an attribute missing from the context is Python `None`. -/
def MarkerExpr.evaluate : MarkerExpr → (Str → Option Str) → Bool
  | .cmp a op l, env => op.apply (env a) l
  | .and x y, env => x.evaluate env && y.evaluate env
  | .or x y, env => x.evaluate env || y.evaluate env

/-- The textual form of one comparison operator. -/
def opStr : MOp → Str
  | .eq => chars "=="
  | .ne => chars "!="
  | .lt => chars "<"
  | .le => chars "<="
  | .gt => chars ">"
  | .ge => chars ">="

/-- Modelled from the spec: `str(marker)` — the canonical string form of a
marker (literals normalized to double quotes), used by the source as the
(extra, marker) grouping key and stored in the `marker` field. -/
def markerStr : MarkerExpr → Str
  | .cmp a op l => a ++ ' ' :: (opStr op ++ ' ' :: '"' :: (l ++ ['"']))
  | .and x y => markerStr x ++ chars " and " ++ markerStr y
  | .or x y => markerStr x ++ chars " or " ++ markerStr y

theorem markerStr_ne_nil (m : MarkerExpr) : markerStr m ≠ [] := by
  cases m with
  | cmp a op l => simp [markerStr]
  | and x y => simp [markerStr, chars]
  | or x y => simp [markerStr, chars]

/-- Modelled from the spec: one parsed `Requires-Dist` requirement as
`pkg_resources.parse_requirements` yields it.  `key` is the lowercased
name; the qualifier text is retained only so that requirement equality
(which drives the source's frozenset-based deduplication) distinguishes
differing version qualifiers, as pkg_resources equality does. -/
structure Requirement where
  key : Str
  specifier : Str
  marker : Option MarkerExpr
deriving DecidableEq

/-! ### Metadata documents and `Wheel.dependencies` / `Wheel.extras` -/

/-- One `run_requires` entry, as a Python dict: structured `metadata.json`
entries carry the keys `extra`, `environment`, `requires`; entries built by
`Wheel._parse_metadata` carry `extra`, `marker`, `requires`.  An absent key
is `none`. -/
structure ReqGroup where
  extra : Option Str := none
  environment : Option Str := none
  marker : Option Str := none
  requires : Option (List Str) := none
deriving DecidableEq

/-- A metadata document, as the dict returned by `Wheel.metadata()`:
either parsed `metadata.json` contents or the result of `_parse_metadata`.
An absent key is `none`. -/
structure Metadata where
  name : Option Str := none
  extras : Option (List Str) := none
  run_requires : Option (List ReqGroup) := none
deriving DecidableEq

/-- `Wheel.extras`: `metadata().get('extras', [])`. -/
def extras (md : Metadata) : List Str := md.extras.getD []

/-- The character class of `re.split('[ ><=()]', entry)`. -/
def isVersionSep (c : Char) : Bool :=
  c == ' ' || c == '>' || c == '<' || c == '=' || c == '(' || c == ')'

/-- `re.split('[ ><=()]', entry)[0]`: strip trailing versioning data from a
requirement entry. -/
def entryName (entry : Str) : Str := (splitOnPred isVersionSep entry).headD []

/-- The test `marker and not evaluate_marker(marker)` from
`Wheel.dependencies`: a group is skipped only when its `environment` value is
a non-empty (truthy) string rejected by the evaluator. -/
def markerBlocks (ev : Str → Bool) (g : ReqGroup) : Bool :=
  match g.environment with
  | none => false
  | some m => !m.isEmpty && !(ev m)

/-- `Wheel.dependencies`: filter `run_requires` groups by requested extra and
by marker evaluation, then yield entry names with version qualifiers split
off.  `ev` stands for `pkg_resources.evaluate_marker` against the ambient
environment. -/
def dependencies (md : Metadata) (extra : Option Str) (ev : Str → Bool) : List Str :=
  (md.run_requires.getD []).flatMap fun g =>
    if g.extra ≠ extra then []
    else if markerBlocks ev g then []
    else (g.requires.getD []).map entryName

/-- Claim C8: a structured-format document with `extras` or `run_requires`
absent is treated as having empty sequences: `extras()` is empty and
`dependencies(None, env)` yields nothing, with no error. -/
theorem claim8 (md : Metadata) (ev : Str → Bool) :
    (md.extras = none → extras md = []) ∧
    (md.run_requires = none → dependencies md none ev = []) := by
  constructor
  · intro h
    simp [extras, h]
  · intro h
    simp [dependencies, h]

/-- An always-false marker evaluator. -/
def evNone : Str → Bool := fun _ => false

/-- The structured metadata document `{"name": "futures"}`. -/
def futuresDoc : Metadata := { name := some (chars "futures") }

/-- Claim C8 witness: the document `{"name": "futures"}`. -/
theorem claim8_witness :
    extras futuresDoc = [] ∧ dependencies futuresDoc none evNone = [] :=
  ⟨(claim8 futuresDoc evNone).1 rfl, (claim8 futuresDoc evNone).2 rfl⟩

/-- Claim C9: every value yielded by `dependencies` is the prefix of some
requirement entry of a selected group up to (excluding) the first occurrence
of a space, `>`, `<`, `=`, `(` or `)`. -/
theorem claim9 (md : Metadata) (x : Option Str) (ev : Str → Bool) (n : Str)
    (h : n ∈ dependencies md x ev) :
    ∃ g ∈ md.run_requires.getD [], ∃ e ∈ g.requires.getD [],
      n = e.takeWhile (fun c => !(isVersionSep c)) := by
  simp only [dependencies, List.mem_flatMap] at h
  obtain ⟨g, hg, hn⟩ := h
  refine ⟨g, hg, ?_⟩
  by_cases h1 : g.extra ≠ x
  · simp [h1] at hn
  · rw [if_neg h1] at hn
    by_cases h2 : markerBlocks ev g
    · simp [h2] at hn
    · rw [if_neg h2] at hn
      obtain ⟨e, he, hne⟩ := List.mem_map.mp hn
      exact ⟨e, he, by rw [← hne, entryName, headD_splitOnPred]⟩

/-- An always-true marker evaluator. -/
def evAll : Str → Bool := fun _ => true

/-- A structured document with one unconditional group carrying a versioned
entry. -/
def versionedDoc : Metadata :=
  { run_requires := some [{ extra := none, requires := some [chars "foo (>=1.0)"] }] }

/-- Claim C9 witness: the entry `foo (>=1.0)` yields the name `foo`. -/
theorem claim9_witness :
    (chars "foo") ∈ dependencies versionedDoc none evAll ∧
    ∃ g ∈ versionedDoc.run_requires.getD [], ∃ e ∈ g.requires.getD [],
      chars "foo" = e.takeWhile (fun c => !(isVersionSep c)) :=
  ⟨by decide, claim9 versionedDoc none evAll (chars "foo") (by decide)⟩

/-- A metadata document of the shape `Wheel._parse_metadata` produces: the
group's condition is stored under the `marker` key, not `environment`. -/
def parsedShapeDoc : Metadata :=
  { name := some (chars "grpcio"),
    extras := some [],
    run_requires := some
      [{ extra := none,
         marker := some (chars "python_version < \"3.0\""),
         requires := some [chars "enum34"] }] }

/-- Claim C1 counterexample: on a document whose group carries its marker in
the `marker` field (the shape `_parse_metadata` emits), `dependencies` yields
the group's names even though the marker is present and the evaluator rejects
every marker, contradicting the claim that a name under a false marker is
never yielded. -/
theorem claim1_counterexample :
    ¬ (∀ n ∈ dependencies parsedShapeDoc none evNone,
        ∃ g ∈ parsedShapeDoc.run_requires.getD [],
          g.extra = none ∧ g.environment.all evNone = true ∧
          g.marker.all evNone = true ∧
          n ∈ (g.requires.getD []).map entryName) := by
  decide

/-- Claim C1 (amended): `dependencies` yields a name only from a group whose
`extra` field equals the requested value and whose `environment` field is
absent, empty, or accepted by the marker evaluator; the `marker` field
written by the text-format parser is never consulted. -/
theorem claim1 (md : Metadata) (x : Option Str) (ev : Str → Bool) (n : Str)
    (h : n ∈ dependencies md x ev) :
    ∃ g ∈ md.run_requires.getD [], g.extra = x ∧
      (g.environment = none ∨ g.environment = some [] ∨
        ∃ m, g.environment = some m ∧ ev m = true) ∧
      n ∈ (g.requires.getD []).map entryName := by
  simp only [dependencies, List.mem_flatMap] at h
  obtain ⟨g, hg, hn⟩ := h
  by_cases h1 : g.extra ≠ x
  · simp [h1] at hn
  · rw [if_neg h1] at hn
    by_cases h2 : markerBlocks ev g
    · simp [h2] at hn
    · rw [if_neg h2] at hn
      refine ⟨g, hg, not_ne_iff.mp h1, ?_, hn⟩
      unfold markerBlocks at h2
      cases he : g.environment with
      | none => exact Or.inl rfl
      | some m =>
        rw [he] at h2
        simp only [Bool.and_eq_true, Bool.not_eq_true', Bool.not_eq_false] at h2
        rw [Decidable.not_and_iff_or_not] at h2
        rcases h2 with h2 | h2
        · refine Or.inr (Or.inl ?_)
          have : m.isEmpty = true := by
            cases hm : m.isEmpty
            · exact absurd hm h2
            · rfl
          cases m with
          | nil => rfl
          | cons c cs => simp [List.isEmpty] at this
        · refine Or.inr (Or.inr ⟨m, rfl, ?_⟩)
          cases hev : ev m
          · exact absurd hev h2
          · rfl

/-- A structured document with one group gated by a marker. -/
def structuredDoc : Metadata :=
  { run_requires := some
      [{ extra := none,
         environment := some (chars "python_version < \"3.0\""),
         requires := some [chars "enum34"] }] }

/-- Claim C1 witness: a structured document with an accepted marker. -/
theorem claim1_witness :
    (chars "enum34") ∈ dependencies structuredDoc none evAll ∧
    ∃ g ∈ structuredDoc.run_requires.getD [], g.extra = none ∧
      (g.environment = none ∨ g.environment = some [] ∨
        ∃ m, g.environment = some m ∧ evAll m = true) ∧
      chars "enum34" ∈ (g.requires.getD []).map entryName :=
  ⟨by decide, claim1 structuredDoc none evAll (chars "enum34") (by decide)⟩

/-! ### Parsing `Requires-Dist` values (modelled from the spec) -/

/-- Characters of a marker attribute name. -/
def isIdentChar (c : Char) : Bool := c.isAlphanum || c == '_' || c == '.'

/-- Characters of a requirement (project) name. -/
def isNameChar (c : Char) : Bool := c.isAlphanum || c == '-' || c == '_' || c == '.'

/-- Python whitespace stripped by `str.strip()`. -/
def isSpaceChar (c : Char) : Bool := c == ' ' || c == '\t' || c == '\n' || c == '\r'

/-- Python `str.strip()`. -/
def trimChars (l : Str) : Str :=
  ((l.dropWhile isSpaceChar).reverse.dropWhile isSpaceChar).reverse

/-- Python `str.lower()` (ASCII names). -/
def toLowerChars (l : Str) : Str := l.map Char.toLower

/-- Marker tokens: attribute names / `and` / `or`, comparison operators, and
quoted string literals. -/
inductive MTok where
  | id (s : Str)
  | op (o : MOp)
  | lit (s : Str)
deriving DecidableEq

/-- Modelled from the spec: tokenize a marker expression.  The fuel argument
only bounds recursion; `s.length + 1` always suffices. -/
def tokenize : Nat → Str → Option (List MTok)
  | 0, _ => none
  | _ + 1, [] => some []
  | fuel + 1, c :: cs =>
    if c == ' ' then tokenize fuel cs
    else if c == '=' then
      match cs with
      | '=' :: cs2 => (tokenize fuel cs2).map (MTok.op MOp.eq :: ·)
      | _ => none
    else if c == '!' then
      match cs with
      | '=' :: cs2 => (tokenize fuel cs2).map (MTok.op MOp.ne :: ·)
      | _ => none
    else if c == '<' then
      match cs with
      | '=' :: cs2 => (tokenize fuel cs2).map (MTok.op MOp.le :: ·)
      | _ => (tokenize fuel cs).map (MTok.op MOp.lt :: ·)
    else if c == '>' then
      match cs with
      | '=' :: cs2 => (tokenize fuel cs2).map (MTok.op MOp.ge :: ·)
      | _ => (tokenize fuel cs).map (MTok.op MOp.gt :: ·)
    else if c == '\'' || c == '"' then
      match cs.dropWhile (fun d => d != c) with
      | _ :: rest => (tokenize fuel rest).map (MTok.lit (cs.takeWhile (fun d => d != c)) :: ·)
      | [] => none
    else if isIdentChar c then
      (tokenize fuel ((c :: cs).dropWhile isIdentChar)).map
        (MTok.id ((c :: cs).takeWhile isIdentChar) :: ·)
    else none

/-- Modelled from the spec: parse one comparison `attribute <op> "literal"`. -/
def parseCmpTok : List MTok → Option (MarkerExpr × List MTok)
  | MTok.id a :: MTok.op o :: MTok.lit l :: rest => some (MarkerExpr.cmp a o l, rest)
  | _ => none

/-- Modelled from the spec: parse comparisons chained by `and` / `or`. -/
def parseMarkerToks : Nat → List MTok → Option MarkerExpr
  | 0, _ => none
  | fuel + 1, toks =>
    match parseCmpTok toks with
    | none => none
    | some (e, rest) =>
      match rest with
      | [] => some e
      | MTok.id w :: rest2 =>
        if w = chars "and" then (parseMarkerToks fuel rest2).map (MarkerExpr.and e)
        else if w = chars "or" then (parseMarkerToks fuel rest2).map (MarkerExpr.or e)
        else none
      | _ => none

/-- Modelled from the spec: parse a marker expression; a malformed expression
is a parse error (`none`), as the Marker Evaluator's grammar demands. -/
def parseMarker (s : Str) : Option MarkerExpr :=
  match tokenize (s.length + 1) s with
  | none => none
  | some toks => parseMarkerToks (toks.length + 1) toks

/-- Modelled from the spec: `pkg_resources.parse_requirements` applied to one
`Requires-Dist` value `<name>( <version-qualifier>)?(; <marker-expression>)?`. -/
def parseRequirement (s : Str) : Option Requirement :=
  match splitOnChar ';' s with
  | [] => none
  | reqPart :: markerParts =>
    let t := trimChars reqPart
    let name := t.takeWhile isNameChar
    if name.isEmpty then none
    else
      let spec := trimChars (t.drop name.length)
      match markerParts with
      | [] => some { key := toLowerChars name, specifier := spec, marker := none }
      | _ =>
        match parseMarker (List.intercalate [';'] markerParts) with
        | none => none
        | some m => some { key := toLowerChars name, specifier := spec, marker := some m }

/-! ### `Wheel._parse_metadata` -/

/-- `re.compile('^Hdr: (.*)', flags=re.MULTILINE).findall(content)` on
already-split lines: the value of every line starting with `Hdr: `. -/
def dropHeader : Str → Str → Option Str
  | [], l => some l
  | _ :: _, [] => none
  | h :: hs, c :: cs => if c = h then dropHeader hs cs else none

/-- All values of a given header among the lines. -/
def headerValues (hdr : Str) (ls : List Str) : List Str :=
  ls.filterMap (dropHeader (hdr ++ chars ": "))

/-- The lines of the metadata text. -/
def linesOf (content : Str) : List Str := splitOnChar '\n' content

/-- Parse every element, failing (like a raised exception) if any fails. -/
def mapOpt (f : α → Option β) : List α → Option (List β)
  | [] => some []
  | x :: xs =>
    match f x, mapOpt f xs with
    | some y, some ys => some (y :: ys)
    | _, _ => none

/-- All parsed `Requires-Dist` requirements of the document. -/
def reqsOfContent (content : Str) : Option (List Requirement) :=
  mapOpt parseRequirement (headerValues (chars "Requires-Dist") (linesOf content))

/-- The evaluation context `{'extra': extra}` layered over the ambient
default environment, as `packaging`'s `Marker.evaluate` builds it. -/
def mkCtx (env : Str → Option Str) (extra : Option Str) : Str → Option Str :=
  fun k => if k = chars "extra" then extra else env k

/-- `reqs_for_extra`: the requirements whose marker is absent or satisfied
with `extra` bound to the given value. -/
def reqsForExtra (env : Str → Option Str) (reqs : List Requirement)
    (extra : Option Str) : List Requirement :=
  reqs.filter fun r =>
    match r.marker with
    | none => true
    | some m => m.evaluate (mkCtx env extra)

/-- `common = frozenset(reqs_for_extra(None))`; only membership in this set
matters downstream. -/
def commonOf (env : Str → Option Str) (reqs : List Requirement) :
    List Requirement :=
  (reqsForExtra env reqs none).dedup

/-- `list(frozenset(reqs_for_extra(extra)) - common)`. -/
def residualOf (env : Str → Option Str) (reqs : List Requirement)
    (extra : Str) : List Requirement :=
  ((reqsForExtra env reqs (some extra)).dedup).filter
    fun r => !(decide (r ∈ commonOf env reqs))

/-- Characters kept verbatim by `pkg_resources.safe_extra`. -/
def isSafeExtraChar (c : Char) : Bool := c.isAlphanum || c == '.' || c == '-'

/-- Helper for `collapseRuns`: the flag records whether the previous
character belonged to a replaced run. -/
def collapseAux : Bool → Str → Str
  | _, [] => []
  | prevBad, c :: cs =>
    if isSafeExtraChar c then c :: collapseAux false cs
    else if prevBad then collapseAux true cs
    else '_' :: collapseAux true cs

/-- Modelled from the spec: `re.sub('[^A-Za-z0-9.-]+', '_', extra)` — each
maximal run of other characters becomes one underscore. -/
def collapseRuns (l : Str) : Str := collapseAux false l

/-- Modelled from the spec: `pkg_resources.safe_extra`. -/
def safe_extra (s : Str) : Str := toLowerChars (collapseRuns s)

/-- The `require_map` dict: association list from extra (None for the common
set) to its requirement list, in insertion order. -/
abbrev RMap := List (Option Str × List Requirement)

/-- Python dict assignment `m[k] = v`: overwrite in place or append. -/
def upsert (m : RMap) (k : Option Str) (v : List Requirement) : RMap :=
  if m.any (fun p => decide (p.1 = k)) then
    m.map (fun p => if p.1 = k then (k, v) else p)
  else m ++ [(k, v)]

/-- Build `require_map`: the common set under `None`, then for each declared
extra (already sorted) its residual set under `safe_extra(extra.strip())`. -/
def requireMapOf (env : Str → Option Str) (reqs : List Requirement)
    (exs : List Str) : RMap :=
  exs.foldl
    (fun m e => upsert m (some (safe_extra (trimChars e))) (residualOf env reqs e))
    [(none, commonOf env reqs)]

/-- Flatten `require_map.items()` into (extra, requirement) pairs, in
iteration order. -/
def pairsOf (rm : RMap) : List (Option Str × Requirement) :=
  rm.flatMap fun er => er.2.map (fun r => (er.1, r))

/-- The grouping key `(extra, str(req.marker))` of the `run_requires` dict. -/
def dictKey (pr : Option Str × Requirement) : Option Str × Option Str :=
  (pr.1, pr.2.marker.map markerStr)

/-- Helper for `occKeys`: keep the first occurrence of every key not yet
seen. -/
def occKeysAux {α : Type} [DecidableEq α] : List α → List α → List α
  | _, [] => []
  | seen, k :: ks =>
    if k ∈ seen then occKeysAux seen ks else k :: occKeysAux (k :: seen) ks

/-- The distinct dict keys in first-insertion order (Python dict key order). -/
def occKeys {α : Type} [DecidableEq α] (l : List α) : List α := occKeysAux [] l

/-- The dict entry for one grouping key: its `extra` and `marker` fields and
the accumulated requirement keys, in iteration order. -/
def bucketOf (ps : List (Option Str × Requirement)) (k : Option Str × Option Str) :
    ReqGroup :=
  { extra := k.1, marker := k.2,
    requires := some ((ps.filter (fun pr => decide (dictKey pr = k))).map
      (fun pr => pr.2.key)) }

/-- `run_requires.values()` in dict order: one group per distinct key. -/
def bucketsOf (ps : List (Option Str × Requirement)) : List ReqGroup :=
  (occKeys (ps.map dictKey)).map (bucketOf ps)

/-- The sort key `(r['extra'] or '', r['marker'] or '')`. -/
def groupKey (g : ReqGroup) : Str × Str := (g.extra.getD [], g.marker.getD [])

/-- The group ordering used by `sorted(run_requires.values(), key=...)`. -/
def GroupLe (g h : ReqGroup) : Prop := pairLe (groupKey g) (groupKey h)

instance : DecidableRel GroupLe := fun g h => by
  unfold GroupLe
  infer_instance

instance : IsTotal ReqGroup GroupLe where
  total g h := pairLe_total (groupKey g) (groupKey h)

instance : IsTrans ReqGroup GroupLe where
  trans _ _ _ h1 h2 := pairLe_trans h1 h2

/-- `entry['requires'] = sorted(entry['requires'])`. -/
def sortRequires (g : ReqGroup) : ReqGroup :=
  { g with requires := some (List.insertionSort StrLe (g.requires.getD [])) }

/-- The final `run_requires` sequence: groups sorted by `(extra, marker)`,
then each group's requirement names sorted. -/
def runRequiresOf (ps : List (Option Str × Requirement)) : List ReqGroup :=
  (List.insertionSort GroupLe (bucketsOf ps)).map sortRequires

/-- `Wheel._parse_metadata`, with `env` the ambient default marker
environment (the interpreter attributes `packaging` supplies); `none` models
the exception raised on a missing `Name:` header or an unparsable
requirement. -/
def parse_metadata (env : Str → Option Str) (content : Str) : Option Metadata :=
  match (headerValues (chars "Name") (linesOf content)).head? with
  | none => none
  | some nm =>
    match reqsOfContent content with
    | none => none
    | some reqs =>
      some { name := some nm,
             extras := some (List.insertionSort StrLe
               ((headerValues (chars "Provides-Extra") (linesOf content)).dedup)),
             run_requires := some (runRequiresOf (pairsOf (requireMapOf env reqs
               (List.insertionSort StrLe
                 ((headerValues (chars "Provides-Extra") (linesOf content)).dedup))))) }

/-! ### Facts about the parse pipeline -/

theorem strLt_of_le_of_ne {a b : Str} (hle : StrLe a b) (hne : a ≠ b) : StrLt a b := by
  unfold StrLe at hle
  unfold StrLt
  cases hh : lexLt a b
  · exact absurd (lexLt_connex hh hle) hne
  · rfl

/-- Inverting a successful `parse_metadata`. -/
theorem parse_metadata_eq_some {env : Str → Option Str} {content : Str} {md : Metadata}
    (h : parse_metadata env content = some md) :
    ∃ nm reqs,
      (headerValues (chars "Name") (linesOf content)).head? = some nm ∧
      reqsOfContent content = some reqs ∧
      md = { name := some nm,
             extras := some (List.insertionSort StrLe
               ((headerValues (chars "Provides-Extra") (linesOf content)).dedup)),
             run_requires := some (runRequiresOf (pairsOf (requireMapOf env reqs
               (List.insertionSort StrLe
                 ((headerValues (chars "Provides-Extra") (linesOf content)).dedup))))) } := by
  unfold parse_metadata at h
  cases hn : (headerValues (chars "Name") (linesOf content)).head? with
  | none => rw [hn] at h; exact absurd h (by simp)
  | some nm =>
    rw [hn] at h
    cases hr : reqsOfContent content with
    | none => rw [hr] at h; exact absurd h (by simp)
    | some reqs =>
      rw [hr] at h
      simp only [Option.some_inj] at h
      exact ⟨nm, reqs, rfl, rfl, h.symm⟩

/-- Claim C6: for text-format input the extras sequence is strictly
ascending (alphabetical) with no duplicates, even when `Provides-Extra`
lines repeat. -/
theorem claim6 (env : Str → Option Str) (content : Str) (md : Metadata)
    (es : List Str) (h : parse_metadata env content = some md)
    (he : md.extras = some es) : es.Sorted StrLt := by
  obtain ⟨nm, reqs, _, _, rfl⟩ := parse_metadata_eq_some h
  simp only [Option.some_inj] at he
  subst he
  have hsorted : List.Sorted StrLe (List.insertionSort StrLe
      ((headerValues (chars "Provides-Extra") (linesOf content)).dedup)) :=
    List.sorted_insertionSort StrLe _
  have hnodup : (List.insertionSort StrLe
      ((headerValues (chars "Provides-Extra") (linesOf content)).dedup)).Nodup :=
    (List.perm_insertionSort StrLe _).symm.nodup (List.nodup_dedup _)
  exact (hsorted.and hnodup).imp (fun {a b} hab => strLt_of_le_of_ne hab.1 hab.2)

/-- The empty ambient marker environment. -/
def evEmpty : Str → Option Str := fun _ => none

/-- The document parsed from repeated, unsorted `Provides-Extra` lines. -/
def extrasMd : Metadata :=
  { name := some (chars "p"), extras := some [chars "a", chars "b"],
    run_requires := some [] }

/-- Claim C6 witness: repeated and unsorted `Provides-Extra` lines. -/
theorem claim6_witness :
    parse_metadata evEmpty (chars "Name: p\nProvides-Extra: b\nProvides-Extra: a\nProvides-Extra: b\n") =
      some extrasMd ∧ ([chars "a", chars "b"] : List Str).Sorted StrLt :=
  ⟨by decide, claim6 evEmpty
    (chars "Name: p\nProvides-Extra: b\nProvides-Extra: a\nProvides-Extra: b\n")
    extrasMd [chars "a", chars "b"] (by decide) rfl⟩

/-- Every group of the final sequence is a sorted bucket of some dict key. -/
theorem mem_runRequiresOf {ps : List (Option Str × Requirement)} {g : ReqGroup}
    (hg : g ∈ runRequiresOf ps) :
    ∃ k ∈ occKeys (ps.map dictKey), g = sortRequires (bucketOf ps k) := by
  unfold runRequiresOf at hg
  obtain ⟨g0, hg0, rfl⟩ := List.mem_map.mp hg
  have hg0' : g0 ∈ bucketsOf ps := (List.perm_insertionSort GroupLe _).mem_iff.mp hg0
  obtain ⟨k, hk, rfl⟩ := List.mem_map.mp hg0'
  exact ⟨k, hk, rfl⟩

/-- Claim C2 (amended): each `run_requires` group's `requires` list is
lexicographically sorted; identical duplicate declarations are merged by the
frozenset, but the same name declared with different version qualifiers may
appear more than once. -/
theorem claim2 (env : Str → Option Str) (content : Str) (md : Metadata)
    (gs : List ReqGroup) (g : ReqGroup) (h : parse_metadata env content = some md)
    (hgs : md.run_requires = some gs) (hg : g ∈ gs) :
    (g.requires.getD []).Sorted StrLe := by
  obtain ⟨nm, reqs, _, _, rfl⟩ := parse_metadata_eq_some h
  simp only [Option.some_inj] at hgs
  subst hgs
  obtain ⟨k, _, rfl⟩ := mem_runRequiresOf hg
  exact List.sorted_insertionSort StrLe _

/-- The requirement list with `foo` declared under two different version
qualifiers. -/
def dupQualContent : Str :=
  chars "Name: p\nRequires-Dist: foo (>=1.0)\nRequires-Dist: foo (<2.0)\n"

/-- Claim C2 counterexample: two declarations of `foo` with different
qualifiers survive deduplication, so the unconditional group lists `foo`
twice — the claimed absence of duplicate names fails. -/
theorem claim2_counterexample :
    parse_metadata evEmpty dupQualContent =
      some { name := some (chars "p"), extras := some [],
             run_requires := some [{ extra := none, marker := none,
                                     requires := some [chars "foo", chars "foo"] }] } ∧
    ¬ (∀ md gs, parse_metadata evEmpty dupQualContent = some md →
        md.run_requires = some gs → ∀ g ∈ gs, (g.requires.getD []).Nodup) := by
  refine ⟨by decide, fun hclaim => ?_⟩
  have h := hclaim
    { name := some (chars "p"), extras := some [],
      run_requires := some [{ extra := none, marker := none,
                              requires := some [chars "foo", chars "foo"] }] }
    [{ extra := none, marker := none, requires := some [chars "foo", chars "foo"] }]
    (by decide) rfl
    { extra := none, marker := none, requires := some [chars "foo", chars "foo"] }
    (by decide)
  exact absurd h (by decide)

/-- The document parsed from `sortedContent`. -/
def sortedContent : Str := chars "Name: p\nRequires-Dist: b\nRequires-Dist: a\n"

/-- Claim C2 witness: requirement names are emitted sorted. -/
theorem claim2_witness :
    parse_metadata evEmpty sortedContent =
      some { name := some (chars "p"), extras := some [],
             run_requires := some [{ extra := none, marker := none,
                                     requires := some [chars "a", chars "b"] }] } ∧
    ([chars "a", chars "b"] : List Str).Sorted StrLe :=
  ⟨by decide,
    claim2 evEmpty sortedContent
      { name := some (chars "p"), extras := some [],
        run_requires := some [{ extra := none, marker := none,
                                requires := some [chars "a", chars "b"] }] }
      [{ extra := none, marker := none, requires := some [chars "a", chars "b"] }]
      { extra := none, marker := none, requires := some [chars "a", chars "b"] }
      (by decide) rfl (by decide)⟩

/-- A requirement drawn from a residual (per-extra) set is a document
requirement outside the common set. -/
theorem residualOf_mem {env : Str → Option Str} {reqs : List Requirement}
    {e : Str} {r : Requirement} (h : r ∈ residualOf env reqs e) :
    r ∈ reqs ∧ r ∉ commonOf env reqs := by
  unfold residualOf at h
  obtain ⟨hmem, hdec⟩ := List.mem_filter.mp h
  have hr : r ∈ reqsForExtra env reqs (some e) := List.mem_dedup.mp hmem
  refine ⟨List.mem_of_mem_filter hr, ?_⟩
  simpa using hdec

/-- The property maintained for every `require_map` entry with a non-`None`
key: its requirements come from the document and avoid the common set. -/
def entryOk (env : Str → Option Str) (reqs : List Requirement)
    (er : Option Str × List Requirement) : Prop :=
  er.1 ≠ none → ∀ r ∈ er.2, r ∈ reqs ∧ r ∉ commonOf env reqs

theorem upsert_mem {m : RMap} {k : Option Str} {v : List Requirement}
    {er : Option Str × List Requirement} (h : er ∈ upsert m k v) :
    er ∈ m ∨ er = (k, v) := by
  unfold upsert at h
  by_cases hc : m.any (fun p => decide (p.1 = k)) = true
  · rw [if_pos hc] at h
    obtain ⟨p, hp, he⟩ := List.mem_map.mp h
    by_cases hpk : p.1 = k
    · rw [if_pos hpk] at he
      exact Or.inr he.symm
    · rw [if_neg hpk] at he
      exact Or.inl (he ▸ hp)
  · rw [if_neg hc] at h
    rcases List.mem_append.mp h with h | h
    · exact Or.inl h
    · exact Or.inr (List.mem_singleton.mp h)

theorem requireMapOf_entryOk (env : Str → Option Str) (reqs : List Requirement)
    (exs : List Str) :
    ∀ er ∈ requireMapOf env reqs exs, entryOk env reqs er := by
  unfold requireMapOf
  suffices h : ∀ (l : List Str) (m : RMap), (∀ er ∈ m, entryOk env reqs er) →
      ∀ er ∈ l.foldl
        (fun m e => upsert m (some (safe_extra (trimChars e))) (residualOf env reqs e)) m,
        entryOk env reqs er by
    refine h exs _ ?_
    intro er her
    rw [List.mem_singleton.mp her]
    intro hne
    exact absurd rfl hne
  intro l
  induction l with
  | nil => intro m hm er her; exact hm er her
  | cons e es ih =>
    intro m hm er her
    refine ih _ ?_ er her
    intro er' her'
    rcases upsert_mem her' with h | h
    · exact hm er' h
    · subst h
      intro _ r hr
      exact residualOf_mem hr

/-- Every (extra, requirement) pair comes from some `require_map` entry. -/
theorem mem_pairsOf {rm : RMap} {pr : Option Str × Requirement}
    (h : pr ∈ pairsOf rm) : ∃ er ∈ rm, pr.1 = er.1 ∧ pr.2 ∈ er.2 := by
  unfold pairsOf at h
  obtain ⟨er, her, hm⟩ := List.mem_flatMap.mp h
  obtain ⟨r, hr, he⟩ := List.mem_map.mp hm
  exact ⟨er, her, by rw [← he], by rw [← he]; exact hr⟩

/-- Claim C3 (amended): every name in a per-extra group is the key of a
requirement declaration that lies outside the common set — the subtraction
removes declarations, not names, so a name can still appear in both the
common group and a per-extra group when it is declared twice with different
qualifiers or markers. -/
theorem claim3 (env : Str → Option Str) (content : Str) (md : Metadata)
    (gs : List ReqGroup) (g : ReqGroup) (s n : Str)
    (h : parse_metadata env content = some md)
    (hgs : md.run_requires = some gs) (hg : g ∈ gs) (hx : g.extra = some s)
    (hn : n ∈ g.requires.getD []) :
    ∃ reqs, reqsOfContent content = some reqs ∧
      ∃ r ∈ reqs, r.key = n ∧ r ∉ commonOf env reqs := by
  obtain ⟨nm, reqs, _, hreqs, rfl⟩ := parse_metadata_eq_some h
  refine ⟨reqs, hreqs, ?_⟩
  simp only [Option.some_inj] at hgs
  subst hgs
  obtain ⟨k, _, rfl⟩ := mem_runRequiresOf hg
  have hx' : k.1 = some s := hx
  have hn' : n ∈ (bucketOf _ k).requires.getD [] :=
    (List.perm_insertionSort StrLe _).mem_iff.mp hn
  obtain ⟨pr, hpr, hkey⟩ := List.mem_map.mp hn'
  obtain ⟨hpm, hpk⟩ := List.mem_filter.mp hpr
  have hdk : dictKey pr = k := by simpa using hpk
  obtain ⟨er, her, hfst, hsnd⟩ := mem_pairsOf hpm
  have hok := requireMapOf_entryOk env reqs _ er her
  have hne : er.1 ≠ none := by
    rw [← hfst]
    have : pr.1 = some s := by
      rw [← hdk] at hx'
      exact hx'
    rw [this]
    exact Option.some_ne_none s
  obtain ⟨hmem, hnc⟩ := hok hne pr.2 hsnd
  exact ⟨pr.2, hmem, hkey, hnc⟩

/-- The document with `foo` declared both unconditionally and under the
`docs` extra. -/
def crossContent : Str :=
  chars "Name: p\nProvides-Extra: docs\nRequires-Dist: foo\nRequires-Dist: foo ; extra == 'docs'\n"

/-- Claim C3 counterexample: the name `foo` appears in the unconditional
(common) group and also in the `docs` per-extra group of the same document,
because the two declarations of `foo` are distinct requirements. -/
theorem claim3_counterexample :
    parse_metadata evEmpty crossContent =
      some { name := some (chars "p"), extras := some [chars "docs"],
             run_requires := some
               [{ extra := none, marker := none, requires := some [chars "foo"] },
                { extra := some (chars "docs"),
                  marker := some (chars "extra == \"docs\""),
                  requires := some [chars "foo"] }] } ∧
    ¬ (∀ md gs, parse_metadata evEmpty crossContent = some md →
        md.run_requires = some gs →
        ∀ g1 ∈ gs, ∀ g2 ∈ gs, g1.extra = none → g2.extra ≠ none →
        ∀ n ∈ g1.requires.getD [], n ∉ g2.requires.getD []) := by
  refine ⟨by decide, fun hclaim => ?_⟩
  have h := hclaim
    { name := some (chars "p"), extras := some [chars "docs"],
      run_requires := some
        [{ extra := none, marker := none, requires := some [chars "foo"] },
         { extra := some (chars "docs"),
           marker := some (chars "extra == \"docs\""),
           requires := some [chars "foo"] }] }
    [{ extra := none, marker := none, requires := some [chars "foo"] },
     { extra := some (chars "docs"), marker := some (chars "extra == \"docs\""),
       requires := some [chars "foo"] }]
    (by decide) rfl
    { extra := none, marker := none, requires := some [chars "foo"] } (by decide)
    { extra := some (chars "docs"), marker := some (chars "extra == \"docs\""),
      requires := some [chars "foo"] } (by decide)
    rfl (by decide) (chars "foo") (by decide)
  exact h (by decide)

/-- The document with a per-extra-only dependency. -/
def extraOnlyContent : Str :=
  chars "Name: p\nProvides-Extra: docs\nRequires-Dist: sphinx ; extra == 'docs'\n"

/-- Claim C3 witness: the `docs` group's entry `sphinx` is the key of a
declaration outside the common set. -/
theorem claim3_witness :
    parse_metadata evEmpty extraOnlyContent =
      some { name := some (chars "p"), extras := some [chars "docs"],
             run_requires := some
               [{ extra := some (chars "docs"),
                  marker := some (chars "extra == \"docs\""),
                  requires := some [chars "sphinx"] }] } ∧
    (∃ reqs, reqsOfContent extraOnlyContent = some reqs ∧
      ∃ r ∈ reqs, r.key = chars "sphinx" ∧ r ∉ commonOf evEmpty reqs) :=
  ⟨by decide,
    claim3 evEmpty extraOnlyContent
      { name := some (chars "p"), extras := some [chars "docs"],
        run_requires := some
          [{ extra := some (chars "docs"),
             marker := some (chars "extra == \"docs\""),
             requires := some [chars "sphinx"] }] }
      [{ extra := some (chars "docs"), marker := some (chars "extra == \"docs\""),
         requires := some [chars "sphinx"] }]
      { extra := some (chars "docs"), marker := some (chars "extra == \"docs\""),
        requires := some [chars "sphinx"] }
      (chars "docs") (chars "sphinx")
      (by decide) rfl (by decide) rfl (by decide)⟩

/-! ### Generic list lemmas for the determinism claim -/

theorem occKeysAux_nil {α : Type} [DecidableEq α] (seen : List α) :
    occKeysAux seen [] = [] := rfl

theorem occKeysAux_cons {α : Type} [DecidableEq α] (seen : List α) (k : α)
    (ks : List α) :
    occKeysAux seen (k :: ks) =
      if k ∈ seen then occKeysAux seen ks else k :: occKeysAux (k :: seen) ks := rfl

theorem mem_occKeysAux {α : Type} [DecidableEq α] {x : α} :
    ∀ {l seen : List α}, x ∈ occKeysAux seen l ↔ x ∈ l ∧ x ∉ seen := by
  intro l
  induction l with
  | nil => intro seen; simp [occKeysAux_nil]
  | cons k ks ih =>
    intro seen
    rw [occKeysAux_cons]
    by_cases hk : k ∈ seen
    · rw [if_pos hk, ih]
      constructor
      · rintro ⟨hx, hs⟩
        exact ⟨List.mem_cons_of_mem _ hx, hs⟩
      · rintro ⟨hx, hs⟩
        rcases List.mem_cons.mp hx with rfl | hx
        · exact absurd hk hs
        · exact ⟨hx, hs⟩
    · rw [if_neg hk]
      constructor
      · intro hx
        rcases List.mem_cons.mp hx with rfl | hx
        · exact ⟨List.mem_cons_self _ _, hk⟩
        · obtain ⟨h1, h2⟩ := ih.mp hx
          exact ⟨List.mem_cons_of_mem _ h1,
            fun hs => h2 (List.mem_cons_of_mem _ hs)⟩
      · rintro ⟨hx, hs⟩
        rcases List.mem_cons.mp hx with rfl | hx
        · exact List.mem_cons_self _ _
        · by_cases hxk : x = k
          · subst hxk
            exact List.mem_cons_self _ _
          · refine List.mem_cons_of_mem _ (ih.mpr ⟨hx, fun hseen => ?_⟩)
            rcases List.mem_cons.mp hseen with h | h
            · exact hxk h
            · exact hs h

theorem mem_occKeys {α : Type} [DecidableEq α] {x : α} {l : List α} :
    x ∈ occKeys l ↔ x ∈ l := by
  unfold occKeys
  rw [mem_occKeysAux]
  simp

theorem nodup_occKeysAux {α : Type} [DecidableEq α] :
    ∀ (l seen : List α), (occKeysAux seen l).Nodup := by
  intro l
  induction l with
  | nil => intro seen; simp [occKeysAux_nil]
  | cons k ks ih =>
    intro seen
    rw [occKeysAux_cons]
    by_cases hk : k ∈ seen
    · rw [if_pos hk]
      exact ih seen
    · rw [if_neg hk]
      refine List.nodup_cons.mpr ⟨fun hmem => ?_, ih (k :: seen)⟩
      exact (mem_occKeysAux.mp hmem).2 (List.mem_cons_self _ _)

theorem nodup_occKeys {α : Type} [DecidableEq α] (l : List α) :
    (occKeys l).Nodup := nodup_occKeysAux l []

theorem occKeys_perm {α : Type} [DecidableEq α] {l1 l2 : List α} (h : List.Perm l1 l2) :
    List.Perm (occKeys l1) (occKeys l2) := by
  refine List.Subperm.antisymm ?_ ?_ <;>
    refine List.subperm_of_subset (nodup_occKeys _) ?_ <;>
    intro x hx
  · exact mem_occKeys.mpr (h.mem_iff.mp (mem_occKeys.mp hx))
  · exact mem_occKeys.mpr (h.mem_iff.mpr (mem_occKeys.mp hx))

theorem occKeysAux_congr {α : Type} [DecidableEq α] :
    ∀ (l : List α) {s1 s2 : List α}, (∀ x, x ∈ s1 ↔ x ∈ s2) →
      occKeysAux s1 l = occKeysAux s2 l := by
  intro l
  induction l with
  | nil => intro s1 s2 _; rfl
  | cons k ks ih =>
    intro s1 s2 h
    rw [occKeysAux_cons, occKeysAux_cons]
    by_cases hk : k ∈ s1
    · rw [if_pos hk, if_pos ((h k).mp hk)]
      exact ih h
    · rw [if_neg hk, if_neg (fun hk2 => hk ((h k).mpr hk2))]
      refine congrArg (k :: ·) (ih fun x => ?_)
      simp only [List.mem_cons]
      exact or_congr Iff.rfl (h x)

theorem occKeysAux_append {α : Type} [DecidableEq α] :
    ∀ (A : List α) (seen B : List α),
      occKeysAux seen (A ++ B) = occKeysAux seen A ++ occKeysAux (A ++ seen) B := by
  intro A
  induction A with
  | nil => intro seen B; rfl
  | cons a A' ih =>
    intro seen B
    show occKeysAux seen (a :: (A' ++ B)) = _
    rw [occKeysAux_cons, occKeysAux_cons]
    by_cases ha : a ∈ seen
    · rw [if_pos ha, if_pos ha, ih seen B]
      refine congrArg (occKeysAux seen A' ++ ·) (occKeysAux_congr B fun x => ?_)
      show x ∈ A' ++ seen ↔ x ∈ a :: (A' ++ seen)
      simp only [List.mem_cons, List.mem_append]
      constructor
      · intro hx; exact Or.inr hx
      · rintro (rfl | hx)
        · exact Or.inr ha
        · exact hx
    · rw [if_neg ha, if_neg ha, ih (a :: seen) B]
      show a :: (occKeysAux (a :: seen) A' ++ occKeysAux (A' ++ a :: seen) B) = _
      refine congrArg (a :: ·) (congrArg (occKeysAux (a :: seen) A' ++ ·)
        (occKeysAux_congr B fun x => ?_))
      show x ∈ A' ++ a :: seen ↔ x ∈ a :: (A' ++ seen)
      simp only [List.mem_cons, List.mem_append]
      constructor
      · rintro (hx | rfl | hx)
        · exact Or.inr (Or.inl hx)
        · exact Or.inl rfl
        · exact Or.inr (Or.inr hx)
      · rintro (rfl | hx | hx)
        · exact Or.inr (Or.inl rfl)
        · exact Or.inl hx
        · exact Or.inr (Or.inr hx)

theorem occKeys_append {α : Type} [DecidableEq α] (A B : List α) :
    occKeys (A ++ B) = occKeys A ++ occKeysAux A B := by
  unfold occKeys
  rw [occKeysAux_append]
  refine congrArg (occKeysAux [] A ++ ·) (occKeysAux_congr B fun x => ?_)
  simp

theorem pair_sublist_orderedInsert {α : Type} {le : α → α → Prop} [DecidableRel le]
    {a b : α} : ∀ {s : List α}, b ∈ s → le a b →
      List.Sublist [a, b] (List.orderedInsert le a s) := by
  intro s
  induction s with
  | nil => intro h _; exact absurd h (List.not_mem_nil b)
  | cons y s' ih =>
    intro hb hab
    show List.Sublist [a, b] (if le a y then a :: y :: s' else y :: List.orderedInsert le a s')
    by_cases hy : le a y
    · rw [if_pos hy]
      exact List.cons_sublist_cons.mpr (List.singleton_sublist.mpr hb)
    · rw [if_neg hy]
      rcases List.mem_cons.mp hb with rfl | hb'
      · exact absurd hab hy
      · exact List.Sublist.cons y (ih hb' hab)

theorem pair_sublist_insertionSort {α : Type} {le : α → α → Prop} [DecidableRel le]
    {a b : α} : ∀ {l : List α}, List.Sublist [a, b] (l) → le a b →
      List.Sublist [a, b] (List.insertionSort le l) := by
  intro l
  induction l with
  | nil => intro h _; exact absurd h (by simp)
  | cons x t ih =>
    intro h hab
    show List.Sublist [a, b] (List.orderedInsert le x (List.insertionSort le t))
    cases h with
    | cons _ h' =>
      exact (ih h' hab).trans (List.sublist_orderedInsert x (List.insertionSort le t))
    | cons₂ _ h' =>
      have hb : b ∈ List.insertionSort le t :=
        (List.perm_insertionSort le t).mem_iff.mpr (List.singleton_sublist.mp h')
      exact pair_sublist_orderedInsert hb hab

theorem sublist_pair_antisym {α : Type} {a b : α} :
    ∀ {l : List α}, l.Nodup → List.Sublist [a, b] (l) → List.Sublist [b, a] l → a = b := by
  intro l
  induction l with
  | nil => intro _ h _; exact absurd h (by simp)
  | cons x t ih =>
    intro hnd h1 h2
    have hx : x ∉ t := (List.nodup_cons.mp hnd).1
    have hnd' : t.Nodup := (List.nodup_cons.mp hnd).2
    cases h1 with
    | cons _ h1' =>
      cases h2 with
      | cons _ h2' => exact ih hnd' h1' h2'
      | cons₂ _ h2' =>
        exact absurd (h1'.subset (by simp)) hx
    | cons₂ _ h1' =>
      cases h2 with
      | cons _ h2' =>
        exact absurd (h2'.subset (by simp)) hx
      | cons₂ _ h2' => rfl

theorem eq_of_sorted_perm_ties {α : Type} {le : α → α → Prop} :
    ∀ {l1 l2 : List α}, List.Perm l1 l2 → List.Sorted le l1 → List.Sorted le l2 →
      l1.Nodup →
      (∀ a b, a ≠ b → le a b → le b a → List.Sublist [a, b] (l1) → List.Sublist [a, b] (l2)) →
      l1 = l2 := by
  intro l1
  induction l1 with
  | nil => intro l2 hp _ _ _ _; exact (hp.symm.eq_nil).symm
  | cons a t1 ih =>
    intro l2 hp hs1 hs2 hnd hties
    cases l2 with
    | nil => exact absurd hp.eq_nil (by simp)
    | cons b t2 =>
      by_cases hab : a = b
      · subst hab
        have hna : a ∉ t1 := (List.nodup_cons.mp hnd).1
        refine congrArg (a :: ·) (ih hp.cons_inv hs1.of_cons hs2.of_cons
          (List.nodup_cons.mp hnd).2 ?_)
        intro x y hxy hle1 hle2 hsub
        have hx : x ∈ t1 := hsub.subset (by simp)
        have hsub2 : List.Sublist [x, y] (a :: t2) := hties x y hxy hle1 hle2 (hsub.cons a)
        cases hsub2 with
        | cons _ h => exact h
        | cons₂ _ h => exact absurd hx hna
      · have hb1 : b ∈ t1 := by
          rcases List.mem_cons.mp (hp.mem_iff.mpr (List.mem_cons_self b t2)) with h | h
          · exact absurd h.symm hab
          · exact h
        have ha2 : a ∈ t2 := by
          rcases List.mem_cons.mp (hp.mem_iff.mp (List.mem_cons_self a t1)) with h | h
          · exact absurd h hab
          · exact h
        have hleab : le a b := (List.sorted_cons.mp hs1).1 b hb1
        have hleba : le b a := (List.sorted_cons.mp hs2).1 a ha2
        have hsubl : List.Sublist [a, b] (a :: t1) :=
          List.cons_sublist_cons.mpr (List.singleton_sublist.mpr hb1)
        have h2 := hties a b hab hleab hleba hsubl
        have hnd2 : (b :: t2).Nodup := hp.nodup hnd
        cases h2 with
        | cons _ h =>
          exact absurd (h.subset (by simp)) (List.nodup_cons.mp hnd2).1
        | cons₂ _ h => exact absurd rfl hab

theorem mapOpt_perm {α β : Type} {f : α → Option β} {l1 l2 : List α}
    (h : List.Perm l1 l2) :
    (mapOpt f l1 = none ∧ mapOpt f l2 = none) ∨
    ∃ r1 r2, mapOpt f l1 = some r1 ∧ mapOpt f l2 = some r2 ∧ List.Perm r1 r2 := by
  induction h with
  | nil => exact Or.inr ⟨[], [], rfl, rfl, List.Perm.refl []⟩
  | cons x htail ih =>
    cases hfx : f x with
    | none => exact Or.inl ⟨by simp [mapOpt, hfx], by simp [mapOpt, hfx]⟩
    | some y =>
      rcases ih with ⟨h1, h2⟩ | ⟨r1, r2, h1, h2, hr⟩
      · exact Or.inl ⟨by simp [mapOpt, hfx, h1], by simp [mapOpt, hfx, h2]⟩
      · exact Or.inr ⟨y :: r1, y :: r2, by simp [mapOpt, hfx, h1],
          by simp [mapOpt, hfx, h2], hr.cons y⟩
  | swap x y t =>
    cases hfy : f y with
    | none => exact Or.inl ⟨by simp [mapOpt, hfy], by simp [mapOpt, hfy]⟩
    | some y' =>
      cases hfx : f x with
      | none => exact Or.inl ⟨by simp [mapOpt, hfx, hfy], by simp [mapOpt, hfx, hfy]⟩
      | some x' =>
        cases hmt : mapOpt f t with
        | none =>
          exact Or.inl ⟨by simp [mapOpt, hfx, hfy, hmt], by simp [mapOpt, hfx, hfy, hmt]⟩
        | some r =>
          exact Or.inr ⟨y' :: x' :: r, x' :: y' :: r,
            by simp [mapOpt, hfx, hfy, hmt], by simp [mapOpt, hfx, hfy, hmt],
            List.Perm.swap x' y' r⟩
  | trans hp1 hp2 ih1 ih2 =>
    rcases ih1 with ⟨a1, a2⟩ | ⟨r1, r2, a1, a2, ar⟩ <;>
      rcases ih2 with ⟨b1, b2⟩ | ⟨s1, s2, b1, b2, br⟩
    · exact Or.inl ⟨a1, b2⟩
    · rw [a2] at b1
      exact absurd b1 (by simp)
    · rw [a2] at b1
      exact absurd b1 (by simp)
    · rw [a2] at b1
      injection b1 with he
      subst he
      exact Or.inr ⟨r1, s2, a1, b2, ar.trans br⟩

theorem insertionSort_perm_eq {l1 l2 : List Str} (h : List.Perm l1 l2) :
    List.insertionSort StrLe l1 = List.insertionSort StrLe l2 :=
  List.eq_of_perm_of_sorted
    (((List.perm_insertionSort StrLe l1).trans h).trans
      (List.perm_insertionSort StrLe l2).symm)
    (List.sorted_insertionSort StrLe l1) (List.sorted_insertionSort StrLe l2)

/-! ### The normalization pipeline under permuted input -/

theorem lexLt_irrefl (a : Str) : lexLt a a = false := by
  cases h : lexLt a a
  · rfl
  · have hf := lexLt_asymm h
    rw [h] at hf
    exact hf

theorem pairLe_refl (a : Str × Str) : pairLe a a :=
  Or.inr ⟨rfl, lexLt_irrefl a.2⟩

theorem groupLe_of_key_eq {g h : ReqGroup} (he : groupKey g = groupKey h) :
    GroupLe g h := by
  unfold GroupLe
  rw [he]
  exact pairLe_refl _

/-- Two `require_map`s with identical keys in identical positions and
pairwise-permuted values. -/
def RMapRel (m1 m2 : RMap) : Prop :=
  List.Forall₂ (fun a b => a.1 = b.1 ∧ List.Perm a.2 b.2) m1 m2

theorem RMapRel.keys {m1 m2 : RMap} (h : RMapRel m1 m2) :
    m1.map Prod.fst = m2.map Prod.fst := by
  induction h with
  | nil => rfl
  | cons hab _ ih => simp only [List.map_cons, ih, hab.1]

theorem forall2_append_single {α : Type} {R : α → α → Prop} {l1 l2 : List α}
    {x y : α} (h : List.Forall₂ R l1 l2) (hxy : R x y) :
    List.Forall₂ R (l1 ++ [x]) (l2 ++ [y]) := by
  induction h with
  | nil => exact List.forall₂_cons.mpr ⟨hxy, List.Forall₂.nil⟩
  | cons hab _ ih => exact List.forall₂_cons.mpr ⟨hab, ih⟩

theorem RMapRel.any_key_eq {m1 m2 : RMap} (h : RMapRel m1 m2) (k : Option Str) :
    (m1.any fun p => decide (p.1 = k)) = (m2.any fun p => decide (p.1 = k)) := by
  induction h with
  | nil => rfl
  | cons hab _ ih =>
    simp only [List.any_cons, hab.1, ih]

theorem upsert_rel {m1 m2 : RMap} {v1 v2 : List Requirement} {k : Option Str}
    (h : RMapRel m1 m2) (hv : List.Perm v1 v2) :
    RMapRel (upsert m1 k v1) (upsert m2 k v2) := by
  unfold upsert
  rw [h.any_key_eq k]
  by_cases hc : (m2.any fun p => decide (p.1 = k)) = true
  · rw [if_pos hc, if_pos hc]
    clear hc
    induction h with
    | nil => exact List.Forall₂.nil
    | cons hab htail ih =>
      rename_i a b t1 t2
      refine List.forall₂_cons.mpr ⟨?_, ih⟩
      dsimp only
      by_cases hak : a.1 = k
      · rw [if_pos hak, if_pos (hab.1.symm.trans hak)]
        exact ⟨rfl, hv⟩
      · rw [if_neg hak, if_neg (fun hbk => hak (hab.1.trans hbk))]
        exact hab
  · rw [if_neg hc, if_neg hc]
    exact forall2_append_single h ⟨rfl, hv⟩

theorem reqsForExtra_perm (env : Str → Option Str) {r1 r2 : List Requirement}
    (hr : List.Perm r1 r2) (e : Option Str) :
    List.Perm (reqsForExtra env r1 e) (reqsForExtra env r2 e) :=
  hr.filter _

theorem commonOf_perm (env : Str → Option Str) {r1 r2 : List Requirement}
    (hr : List.Perm r1 r2) :
    List.Perm (commonOf env r1) (commonOf env r2) :=
  (reqsForExtra_perm env hr none).dedup

theorem residualOf_perm (env : Str → Option Str) {r1 r2 : List Requirement}
    (hr : List.Perm r1 r2) (e : Str) :
    List.Perm (residualOf env r1 e) (residualOf env r2 e) := by
  unfold residualOf
  have hd : List.Perm ((reqsForExtra env r1 (some e)).dedup)
      ((reqsForExtra env r2 (some e)).dedup) :=
    (reqsForExtra_perm env hr (some e)).dedup
  have hstep := hd.filter (fun r => !(decide (r ∈ commonOf env r1)))
  have hcongr : ((reqsForExtra env r2 (some e)).dedup).filter
        (fun r => !(decide (r ∈ commonOf env r1))) =
      ((reqsForExtra env r2 (some e)).dedup).filter
        (fun r => !(decide (r ∈ commonOf env r2))) := by
    refine List.filter_congr fun x _ => ?_
    have : (x ∈ commonOf env r1) ↔ (x ∈ commonOf env r2) :=
      (commonOf_perm env hr).mem_iff
    rw [decide_eq_decide.mpr this]
  rw [hcongr] at hstep
  exact hstep

theorem requireMapOf_rel (env : Str → Option Str) (exs : List Str)
    {r1 r2 : List Requirement} (hr : List.Perm r1 r2) :
    RMapRel (requireMapOf env r1 exs) (requireMapOf env r2 exs) := by
  unfold requireMapOf
  suffices h : ∀ (l : List Str) (m1 m2 : RMap), RMapRel m1 m2 →
      RMapRel
        (l.foldl (fun m e => upsert m (some (safe_extra (trimChars e)))
          (residualOf env r1 e)) m1)
        (l.foldl (fun m e => upsert m (some (safe_extra (trimChars e)))
          (residualOf env r2 e)) m2) by
    exact h exs _ _
      (List.forall₂_cons.mpr ⟨⟨rfl, commonOf_perm env hr⟩, List.Forall₂.nil⟩)
  intro l
  induction l with
  | nil => intro m1 m2 h; exact h
  | cons e es ih =>
    intro m1 m2 h
    exact ih _ _ (upsert_rel h (residualOf_perm env hr e))

theorem pairsOf_rel_perm {m1 m2 : RMap} (h : RMapRel m1 m2) :
    List.Perm (pairsOf m1) (pairsOf m2) := by
  induction h with
  | nil => exact List.Perm.refl _
  | @cons a b t1 t2 hab htail ih =>
    show List.Perm (a.2.map (fun r => (a.1, r)) ++ pairsOf t1)
      (b.2.map (fun r => (b.1, r)) ++ pairsOf t2)
    rw [← hab.1]
    exact (hab.2.map _).append ih

/-- The key sequence of a built `require_map`: `None` first, then only
non-`None` keys. -/
theorem requireMapOf_keys (env : Str → Option Str) (reqs : List Requirement)
    (exs : List Str) :
    ∃ ks, (requireMapOf env reqs exs).map Prod.fst = none :: ks ∧
      ∀ k ∈ ks, k ≠ none := by
  unfold requireMapOf
  suffices h : ∀ (l : List Str) (m : RMap),
      (∃ ks, m.map Prod.fst = none :: ks ∧ ∀ k ∈ ks, k ≠ none) →
      ∃ ks, ((l.foldl (fun m e => upsert m (some (safe_extra (trimChars e)))
        (residualOf env reqs e)) m).map Prod.fst) = none :: ks ∧
        ∀ k ∈ ks, k ≠ none by
    exact h exs _ ⟨[], rfl, by simp⟩
  intro l
  induction l with
  | nil => intro m h; exact h
  | cons e es ih =>
    intro m h
    rw [List.foldl_cons]
    refine ih _ ?_
    obtain ⟨ks, hks, hall⟩ := h
    unfold upsert
    by_cases hc : (m.any fun p => decide (p.1 = some (safe_extra (trimChars e)))) = true
    · rw [if_pos hc]
      refine ⟨ks, ?_, hall⟩
      have : (m.map (fun p => if p.1 = some (safe_extra (trimChars e))
          then (some (safe_extra (trimChars e)), residualOf env reqs e) else p)).map Prod.fst =
          m.map Prod.fst := by
        rw [List.map_map]
        refine List.map_congr_left fun p _ => ?_
        show Prod.fst (if p.1 = some (safe_extra (trimChars e)) then _ else p) = p.1
        by_cases hp : p.1 = some (safe_extra (trimChars e))
        · rw [if_pos hp, hp]
        · rw [if_neg hp]
      rw [this, hks]
    · rw [if_neg hc]
      refine ⟨ks ++ [some (safe_extra (trimChars e))], ?_, ?_⟩
      · rw [List.map_append, hks]
        rfl
      · intro k hk
        rcases List.mem_append.mp hk with hk | hk
        · exact hall k hk
        · rw [List.mem_singleton.mp hk]
          exact Option.some_ne_none _

theorem sortRequires_bucketOf_eq {ps1 ps2 : List (Option Str × Requirement)}
    (h : List.Perm ps1 ps2) (k : Option Str × Option Str) :
    sortRequires (bucketOf ps1 k) = sortRequires (bucketOf ps2 k) := by
  unfold sortRequires bucketOf
  simp only [Option.getD_some]
  have hperm : List.Perm
      ((ps1.filter fun pr => decide (dictKey pr = k)).map fun pr => pr.2.key)
      ((ps2.filter fun pr => decide (dictKey pr = k)).map fun pr => pr.2.key) :=
    (h.filter _).map _
  rw [insertionSort_perm_eq hperm]

theorem key_marker_cases {ps : List (Option Str × Requirement)}
    {k : Option Str × Option Str} (hk : k ∈ occKeys (ps.map dictKey)) :
    k.2 = none ∨ ∃ m, k.2 = some (markerStr m) := by
  obtain ⟨pr, _, rfl⟩ := List.mem_map.mp (mem_occKeys.mp hk)
  cases hm : pr.2.marker with
  | none => exact Or.inl (by simp [dictKey, hm])
  | some m => exact Or.inr ⟨m, by simp [dictKey, hm]⟩

theorem key_some_extra_marker {env : Str → Option Str} {reqs : List Requirement}
    {exs : List Str} {k : Option Str × Option Str}
    (hk : k ∈ occKeys ((pairsOf (requireMapOf env reqs exs)).map dictKey))
    (hne : k.1 ≠ none) : k.2 ≠ none := by
  obtain ⟨pr, hpr, rfl⟩ := List.mem_map.mp (mem_occKeys.mp hk)
  obtain ⟨er, her, hfst, hsnd⟩ := mem_pairsOf hpr
  have hok := requireMapOf_entryOk env reqs exs er her
  have herne : er.1 ≠ none := by
    rw [← hfst]
    exact hne
  obtain ⟨hmemr, hnc⟩ := hok herne pr.2 hsnd
  intro h2
  have hmn : pr.2.marker = none := by
    cases hmm : pr.2.marker with
    | none => rfl
    | some m =>
      rw [show (dictKey pr).2 = pr.2.marker.map markerStr from rfl, hmm] at h2
      exact absurd h2 (by simp)
  apply hnc
  unfold commonOf
  rw [List.mem_dedup]
  unfold reqsForExtra
  rw [List.mem_filter]
  refine ⟨hmemr, ?_⟩
  show (match pr.2.marker with
    | none => true
    | some m => m.evaluate (mkCtx env none)) = true
  rw [hmn]

theorem keys_pair_sublist (env : Str → Option Str) (reqs : List Requirement)
    (exs : List Str) {k k' : Option Str × Option Str}
    (hk : k ∈ occKeys ((pairsOf (requireMapOf env reqs exs)).map dictKey))
    (hk' : k' ∈ occKeys ((pairsOf (requireMapOf env reqs exs)).map dictKey))
    (hn : k.1 = none) (hs : k'.1 ≠ none) :
    List.Sublist [k, k']
      (occKeys ((pairsOf (requireMapOf env reqs exs)).map dictKey)) := by
  obtain ⟨ks, hks, hall⟩ := requireMapOf_keys env reqs exs
  cases hrm : requireMapOf env reqs exs with
  | nil =>
    rw [hrm] at hks
    exact absurd hks (by simp)
  | cons e0 rest =>
    rw [hrm] at hks
    simp only [List.map_cons] at hks
    injection hks with h0 hrest
    have hpairs : pairsOf (e0 :: rest) = e0.2.map (fun r => (e0.1, r)) ++ pairsOf rest := by
      unfold pairsOf
      rw [List.flatMap_cons]
    rw [hrm] at hk hk'
    rw [hpairs, List.map_append, occKeys_append] at hk hk' ⊢
    have hpropA : ∀ x ∈ (e0.2.map fun r => (e0.1, r)).map dictKey, x.1 = none := by
      intro x hx
      obtain ⟨pr, hpr, rfl⟩ := List.mem_map.mp hx
      obtain ⟨r, _, rfl⟩ := List.mem_map.mp hpr
      exact h0
    have hpropB : ∀ x ∈ (pairsOf rest).map dictKey, x.1 ≠ none := by
      intro x hx
      obtain ⟨pr, hpr, rfl⟩ := List.mem_map.mp hx
      obtain ⟨er, her, hfst, _⟩ := mem_pairsOf hpr
      show pr.1 ≠ none
      rw [hfst]
      intro hcc
      have hmm : er.1 ∈ rest.map Prod.fst := List.mem_map.mpr ⟨er, her, rfl⟩
      rw [hrest] at hmm
      exact hall er.1 hmm hcc
    have hkA : k ∈ occKeys ((e0.2.map fun r => (e0.1, r)).map dictKey) := by
      rcases List.mem_append.mp hk with h | h
      · exact h
      · exact absurd hn (hpropB k (mem_occKeysAux.mp h).1)
    have hk'B : k' ∈ occKeysAux ((e0.2.map fun r => (e0.1, r)).map dictKey)
        ((pairsOf rest).map dictKey) := by
      rcases List.mem_append.mp hk' with h | h
      · exact absurd (hpropA k' (mem_occKeys.mp h)) hs
      · exact h
    exact List.Sublist.append (List.singleton_sublist.mpr hkA)
      (List.singleton_sublist.mpr hk'B)

/-- The normalized `run_requires` sequence is invariant under permutation of
the parsed requirement list. -/
theorem runRequiresOf_perm_eq (env : Str → Option Str) (exs : List Str)
    {r1 r2 : List Requirement} (hr : List.Perm r1 r2) :
    runRequiresOf (pairsOf (requireMapOf env r1 exs)) =
      runRequiresOf (pairsOf (requireMapOf env r2 exs)) := by
  have hps : List.Perm (pairsOf (requireMapOf env r1 exs))
      (pairsOf (requireMapOf env r2 exs)) :=
    pairsOf_rel_perm (requireMapOf_rel env exs hr)
  set ps1 := pairsOf (requireMapOf env r1 exs) with hps1def
  set ps2 := pairsOf (requireMapOf env r2 exs) with hps2def
  have hkeys : List.Perm (occKeys (ps1.map dictKey)) (occKeys (ps2.map dictKey)) :=
    occKeys_perm (hps.map dictKey)
  set keys1 := occKeys (ps1.map dictKey) with hk1def
  set keys2 := occKeys (ps2.map dictKey) with hk2def
  have hperm1 : List.Perm (runRequiresOf ps1)
      (keys1.map fun k => sortRequires (bucketOf ps1 k)) := by
    have h := (List.perm_insertionSort GroupLe (keys1.map (bucketOf ps1))).map sortRequires
    rw [List.map_map] at h
    exact h
  have hperm2 : List.Perm (runRequiresOf ps2)
      (keys2.map fun k => sortRequires (bucketOf ps1 k)) := by
    have h := (List.perm_insertionSort GroupLe (keys2.map (bucketOf ps2))).map sortRequires
    rw [List.map_map] at h
    refine h.trans ?_
    rw [show (List.map (sortRequires ∘ bucketOf ps2) keys2) =
      (keys2.map fun k => sortRequires (bucketOf ps1 k)) from
      List.map_congr_left fun k _ => (sortRequires_bucketOf_eq hps k).symm]
  have houtperm : List.Perm (runRequiresOf ps1) (runRequiresOf ps2) :=
    hperm1.trans ((hkeys.map _).trans hperm2.symm)
  have hsorted : ∀ ps : List (Option Str × Requirement),
      List.Sorted GroupLe (runRequiresOf ps) := by
    intro ps
    exact List.Pairwise.map sortRequires (fun a b hab => hab)
      (List.sorted_insertionSort GroupLe (bucketsOf ps))
  have hnodmap : (keys1.map fun k => sortRequires (bucketOf ps1 k)).Nodup := by
    refine List.Nodup.map_on ?_ (nodup_occKeys _)
    intro x _ y _ hxy
    have hex : x.1 = y.1 := congrArg ReqGroup.extra hxy
    have hmk : x.2 = y.2 := congrArg ReqGroup.marker hxy
    exact Prod.ext_iff.mpr ⟨hex, hmk⟩
  have hnod1 : (runRequiresOf ps1).Nodup := hperm1.symm.nodup hnodmap
  have hties : ∀ a b, a ≠ b → GroupLe a b → GroupLe b a →
      List.Sublist [a, b] (runRequiresOf ps1) →
      List.Sublist [a, b] (runRequiresOf ps2) := by
    intro a b hab hle1 hle2 hsub
    have hamem : a ∈ keys1.map fun k => sortRequires (bucketOf ps1 k) :=
      hperm1.mem_iff.mp (hsub.subset (by simp))
    have hbmem : b ∈ keys1.map fun k => sortRequires (bucketOf ps1 k) :=
      hperm1.mem_iff.mp (hsub.subset (by simp))
    obtain ⟨ka, hka, rfl⟩ := List.mem_map.mp hamem
    obtain ⟨kb, hkb, rfl⟩ := List.mem_map.mp hbmem
    have hkey : groupKey (sortRequires (bucketOf ps1 ka)) =
        groupKey (sortRequires (bucketOf ps1 kb)) :=
      pairLe_antisymm hle1 hle2
    have hgd1 : ka.1.getD [] = kb.1.getD [] := congrArg Prod.fst hkey
    have hgd2 : ka.2.getD [] = kb.2.getD [] := congrArg Prod.snd hkey
    have hkne : ka ≠ kb := fun h => hab (by rw [h])
    have hmark : ka.2 = kb.2 := by
      rcases key_marker_cases hka with h1 | ⟨m1, h1⟩ <;>
        rcases key_marker_cases hkb with h2 | ⟨m2, h2⟩
      · rw [h1, h2]
      · rw [h1, h2] at hgd2
        simp only [Option.getD_none, Option.getD_some] at hgd2
        exact absurd hgd2.symm (markerStr_ne_nil m2)
      · rw [h1, h2] at hgd2
        simp only [Option.getD_none, Option.getD_some] at hgd2
        exact absurd hgd2 (markerStr_ne_nil m1)
      · rw [h1, h2] at hgd2 ⊢
        simp only [Option.getD_some] at hgd2
        rw [hgd2]
    have hextra : (ka.1 = none ∧ kb.1 ≠ none) ∨ (ka.1 ≠ none ∧ kb.1 = none) := by
      by_cases h1 : ka.1 = none
      · by_cases h2 : kb.1 = none
        · exact absurd (Prod.ext_iff.mpr ⟨h1.trans h2.symm, hmark⟩) hkne
        · exact Or.inl ⟨h1, h2⟩
      · by_cases h2 : kb.1 = none
        · exact Or.inr ⟨h1, h2⟩
        · obtain ⟨e1, he1⟩ := Option.ne_none_iff_exists'.mp h1
          obtain ⟨e2, he2⟩ := Option.ne_none_iff_exists'.mp h2
          rw [he1, he2] at hgd1
          simp only [Option.getD_some] at hgd1
          exact absurd (Prod.ext_iff.mpr ⟨by rw [he1, he2, hgd1], hmark⟩) hkne
    have hka2 : ka ∈ keys2 := hkeys.mem_iff.mp hka
    have hkb2 : kb ∈ keys2 := hkeys.mem_iff.mp hkb
    rcases hextra with ⟨hn, hs⟩ | ⟨hs, hn⟩
    · have hsub2 : List.Sublist [ka, kb] keys2 :=
        keys_pair_sublist env r2 exs hka2 hkb2 hn hs
      have htie : GroupLe (bucketOf ps2 ka) (bucketOf ps2 kb) :=
        groupLe_of_key_eq hkey
      have hstab := pair_sublist_insertionSort (hsub2.map (bucketOf ps2)) htie
      have hfin := hstab.map sortRequires
      simp only [List.map_cons, List.map_nil] at hfin
      rw [← sortRequires_bucketOf_eq hps ka, ← sortRequires_bucketOf_eq hps kb] at hfin
      exact hfin
    · have hsub1 : List.Sublist [kb, ka] keys1 :=
        keys_pair_sublist env r1 exs hkb hka hn hs
      have htie : GroupLe (bucketOf ps1 kb) (bucketOf ps1 ka) :=
        groupLe_of_key_eq hkey.symm
      have hstab := pair_sublist_insertionSort (hsub1.map (bucketOf ps1)) htie
      have hba := hstab.map sortRequires
      simp only [List.map_cons, List.map_nil] at hba
      exact absurd (sublist_pair_antisym hnod1 hsub hba) hab
  exact eq_of_sorted_perm_ties houtperm (hsorted ps1) (hsorted ps2) hnod1 hties

/-- Claim C4: `_parse_metadata` is deterministic and input-order invariant:
for a fixed ambient environment, two metadata texts whose lines are
permutations of each other (with the same first `Name:` value) normalize to
identical documents — same extras sequence and same group sequence, groups
ordered by (extra, marker). -/
theorem claim4 (env : Str → Option Str) (c1 c2 : Str)
    (hperm : List.Perm (linesOf c1) (linesOf c2))
    (hname : (headerValues (chars "Name") (linesOf c1)).head? =
      (headerValues (chars "Name") (linesOf c2)).head?) :
    parse_metadata env c1 = parse_metadata env c2 := by
  unfold parse_metadata
  rw [hname]
  cases hn : (headerValues (chars "Name") (linesOf c2)).head? with
  | none => rfl
  | some nm =>
    have hrv : List.Perm (headerValues (chars "Requires-Dist") (linesOf c1))
        (headerValues (chars "Requires-Dist") (linesOf c2)) := hperm.filterMap _
    have hex : List.insertionSort StrLe
          ((headerValues (chars "Provides-Extra") (linesOf c1)).dedup) =
        List.insertionSort StrLe
          ((headerValues (chars "Provides-Extra") (linesOf c2)).dedup) :=
      insertionSort_perm_eq (hperm.filterMap _).dedup
    rcases mapOpt_perm (f := parseRequirement) hrv with ⟨h1, h2⟩ | ⟨q1, q2, h1, h2, hq⟩
    · rw [show reqsOfContent c1 = none from h1, show reqsOfContent c2 = none from h2]
    · rw [show reqsOfContent c1 = some q1 from h1,
        show reqsOfContent c2 = some q2 from h2, hex]
      dsimp only
      rw [runRequiresOf_perm_eq env _ hq]

/-- Claim C4 witness: the same two requirement lines in either order. -/
theorem claim4_witness :
    List.Perm (linesOf (chars "Name: p\nRequires-Dist: b\nRequires-Dist: a"))
      (linesOf (chars "Name: p\nRequires-Dist: a\nRequires-Dist: b")) ∧
    parse_metadata evEmpty (chars "Name: p\nRequires-Dist: b\nRequires-Dist: a") =
      parse_metadata evEmpty (chars "Name: p\nRequires-Dist: a\nRequires-Dist: b") :=
  ⟨by decide,
    claim4 evEmpty (chars "Name: p\nRequires-Dist: b\nRequires-Dist: a")
      (chars "Name: p\nRequires-Dist: a\nRequires-Dist: b")
      (by decide) (by decide)⟩
